import Mathlib

/-!
# Verification of the ink-on stroke-to-LaTeX recognition core

Shallow embedding of the ink-on repository's LaTeX repair/validation stage
(`src/core/tokenizer.ts`), the autoregressive decoding engine
(`src/core/inference.worker.ts`), the stroke preprocessing geometry
(`src/core/preprocessing.ts`), and the stroke resampler
(`benchmark/preprocessing-node.ts`).

Modelling conventions:
* JavaScript numbers are modelled as `ℚ`; the IEEE-754 special value
  `-Infinity` (introduced only by vocabulary masking) is modelled by `⊥`
  in `WithBot ℚ`.
* The external ONNX decoder is modelled as an oracle
  `exec : List ℕ → List ℚ` mapping the current token-id sequence to the
  log-softmax scores of the final position (the `logSoftmax` output in the
  worker; log-softmax of finite logits is always finite).
* `Array.prototype.sort` with the comparator `(a, b) => score b - score a`
  is a stable descending sort by score (per the ECMAScript specification a
  `NaN` comparator value is treated as `+0`, so incomparable `-Infinity`
  pairs keep their relative order); it is modelled by `List.mergeSort`
  with the boolean relation `score b ≤ score a`, which is stable, total
  and transitive.
-/

namespace InkOn

/-! ## LaTeX repair and validation (`src/core/tokenizer.ts`) -/

/-- `balanceBraces` inner loop (`tokenizer.ts` lines 36-62): single
left-to-right pass with a depth counter; a `}` at depth 0 is dropped;
at the end the remaining depth is closed with `}` tokens. -/
def bbGo : List String → ℕ → List String
  | [], d => List.replicate d "\x7d"
  | t :: ts, d =>
    if t = "\x7b" then "\x7b" :: bbGo ts (d + 1)
    else if t = "\x7d" then
      if 0 < d then "\x7d" :: bbGo ts (d - 1) else bbGo ts d
    else t :: bbGo ts d

/-- `balanceBraces(tokens)` from `tokenizer.ts`. -/
def balanceBraces (tokens : List String) : List String :=
  bbGo tokens 0

/-- The fixed set of arity-requiring commands (`NEEDS_ARGS` in
`tokenizer.ts` lines 159-169). -/
def NEEDS_ARGS : List String :=
  ["\\sum", "\\int", "\\sin", "\\cos", "\\tan", "\\log", "\\lim",
   "\\sqrt", "\\frac"]

/-- `countBracedGroups(tokens)` (`tokenizer.ts` lines 190-208), fused
with its inner `while (i < len && depth > 0)` loop into one recursion on
the token list carrying the current depth: at depth 0 a `{` opens a new
counted group and anything else `break`s the scan (bare tokens are never
counted); at positive depth tokens only adjust the depth. -/
def cbgGo : List String → ℕ → ℕ
  | [], _ => 0
  | t :: ts, 0 => if t = "\x7b" then 1 + cbgGo ts 1 else 0
  | t :: ts, d + 1 =>
    cbgGo ts (if t = "\x7b" then d + 2 else if t = "\x7d" then d else d + 1)

/-- `countBracedGroups(tokens)` from `tokenizer.ts`. -/
def countBracedGroups (tokens : List String) : ℕ :=
  cbgGo tokens 0

/-- The `for` loop of `isCompleteExpression` (`tokenizer.ts` lines
176-185): for every position holding `\frac` (resp. `\sqrt`), the rest of
the sequence must start with at least 2 (resp. 1) braced groups. -/
def fracSqrtOk : List String → Bool
  | [] => true
  | t :: ts =>
    (if t = "\\frac" then decide (2 ≤ countBracedGroups ts) else true) &&
    (if t = "\\sqrt" then decide (1 ≤ countBracedGroups ts) else true) &&
    fracSqrtOk ts

/-- `isCompleteExpression(tokens)` (`tokenizer.ts` lines 171-188). -/
def isCompleteExpression (tokens : List String) : Bool :=
  if tokens.length = 0 then false
  else if tokens.length = 1 ∧ NEEDS_ARGS.contains (tokens.getD 0 "") = true
    then false
  else fracSqrtOk tokens

/-- Tokens that are neither `{` nor `}`. -/
def nonBrace (t : String) : Bool := !(t == "\x7b" || t == "\x7d")

theorem bbGo_count_close (ts : List String) (d : ℕ) :
    (bbGo ts d).count "\x7d" = (bbGo ts d).count "\x7b" + d := by
  induction ts generalizing d with
  | nil =>
    simp [bbGo, List.count_replicate]
  | cons t ts ih =>
    by_cases h1 : t = "\x7b"
    · subst h1
      simp [bbGo, List.count_cons, ih]
      omega
    · by_cases h2 : t = "\x7d"
      · subst h2
        rcases Nat.eq_zero_or_pos d with hd | hd
        · subst hd; simpa [bbGo, h1] using ih 0
        · have hd' : d - 1 + 1 = d := Nat.succ_pred_eq_of_pos hd
          simp only [bbGo, if_neg h1, if_pos rfl, if_pos hd]
          simp [List.count_cons, ih]
          omega
      · simp [bbGo, h1, h2, List.count_cons, ih]

theorem bbGo_prefix_depth (ts : List String) (d n : ℕ) :
    ((bbGo ts d).take n).count "\x7d" ≤ ((bbGo ts d).take n).count "\x7b" + d := by
  induction ts generalizing d n with
  | nil =>
    rw [show bbGo [] d = List.replicate d "\x7d" from rfl, List.take_replicate]
    simp [List.count_replicate]
  | cons t ts ih =>
    by_cases h1 : t = "\x7b"
    · subst h1
      rw [show bbGo ("\x7b" :: ts) d = "\x7b" :: bbGo ts (d + 1) from by
        simp [bbGo]]
      cases n with
      | zero => simp
      | succ n =>
        have h := ih (d + 1) n
        rw [List.take_succ_cons]
        simp only [List.count_cons]
        simp
        omega
    · by_cases h2 : t = "\x7d"
      · subst h2
        rcases Nat.eq_zero_or_pos d with hd | hd
        · subst hd
          rw [show bbGo ("\x7d" :: ts) 0 = bbGo ts 0 from by simp [bbGo]]
          exact ih 0 n
        · rw [show bbGo ("\x7d" :: ts) d = "\x7d" :: bbGo ts (d - 1) from by
            simp [bbGo, hd]]
          cases n with
          | zero => simp
          | succ n =>
            have h := ih (d - 1) n
            rw [List.take_succ_cons]
            simp only [List.count_cons]
            simp
            omega
      · rw [show bbGo (t :: ts) d = t :: bbGo ts d from by simp [bbGo, h1, h2]]
        cases n with
        | zero => simp
        | succ n =>
          have h := ih d n
          rw [List.take_succ_cons]
          simp only [List.count_cons]
          simp [h1, h2]
          omega

theorem bbGo_filter_nonBrace (ts : List String) (d : ℕ) :
    (bbGo ts d).filter nonBrace = ts.filter nonBrace := by
  induction ts generalizing d with
  | nil =>
    simp only [bbGo, List.filter_nil]
    induction d with
    | zero => simp
    | succ d ih => simp [List.replicate_succ, List.filter_cons, nonBrace, ih]
  | cons t ts ih =>
    by_cases h1 : t = "\x7b"
    · subst h1; simp [bbGo, List.filter_cons, nonBrace, ih]
    · by_cases h2 : t = "\x7d"
      · subst h2
        rcases Nat.eq_zero_or_pos d with hd | hd
        · subst hd; simp [bbGo, h1, List.filter_cons, nonBrace, ih]
        · simp [bbGo, h1, hd, List.filter_cons, nonBrace, ih]
      · simp [bbGo, h1, h2, List.filter_cons, nonBrace, ih]

/-- C6: for every token array, the output of `balanceBraces` has equally
many `{` and `}` tokens, no prefix of the output has more `}` than `{`
(the running depth is never negative), and all tokens other than braces
are preserved in order. -/
theorem balanceBraces_balanced (tokens : List String) :
    (balanceBraces tokens).count "\x7d" = (balanceBraces tokens).count "\x7b" ∧
    (∀ n, ((balanceBraces tokens).take n).count "\x7d" ≤
      ((balanceBraces tokens).take n).count "\x7b") ∧
    (balanceBraces tokens).filter nonBrace = tokens.filter nonBrace := by
  refine ⟨?_, ?_, ?_⟩
  · simpa using bbGo_count_close tokens 0
  · intro n; simpa using bbGo_prefix_depth tokens 0 n
  · exact bbGo_filter_nonBrace tokens 0

/-- The `for` loop of `isCompleteExpression` checks, at every position
holding `\frac` (resp. `\sqrt`), that the remaining suffix starts with at
least 2 (resp. 1) braced groups. -/
theorem fracSqrtOk_iff (l : List String) :
    fracSqrtOk l = true ↔
      ∀ i, i < l.length →
        (l.getD i "" = "\\frac" → 2 ≤ countBracedGroups (l.drop (i + 1))) ∧
        (l.getD i "" = "\\sqrt" → 1 ≤ countBracedGroups (l.drop (i + 1))) := by
  induction l with
  | nil => simp [fracSqrtOk]
  | cons t ts ih =>
    simp only [fracSqrtOk, Bool.and_eq_true]
    constructor
    · rintro ⟨⟨hf, hs⟩, hrest⟩ i hi
      cases i with
      | zero =>
        refine ⟨fun ht => ?_, fun ht => ?_⟩
        · simp only [List.getD_cons_zero] at ht
          rw [ht] at hf; simpa using hf
        · simp only [List.getD_cons_zero] at ht
          rw [ht] at hs
          by_cases hts : t = "\\frac" <;> simp [hts] at hs ⊢ <;> simpa using hs
      | succ i =>
        have := (ih.mp hrest) i (by simpa using hi)
        simpa using this
    · intro h
      refine ⟨⟨?_, ?_⟩, ih.mpr fun i hi => by simpa using h (i + 1) (by simpa using hi)⟩
      · by_cases ht : t = "\\frac"
        · have h0 := (h 0 (Nat.succ_pos _)).1 (by simpa using ht)
          simp only [List.drop_succ_cons, List.drop_zero] at h0
          simp [ht, h0]
        · simp [ht]
      · by_cases ht : t = "\\sqrt"
        · have h0 := (h 0 (Nat.succ_pos _)).2 (by simpa using ht)
          simp only [List.drop_succ_cons, List.drop_zero] at h0
          simp [ht, h0]
        · simp [ht]

/-- C1 counterexample: the claim asserts a bare single token counts as an
argument group, so that `["\frac","a","b"]` would be complete; the code's
`countBracedGroups` stops at the first token that is not `{`, so this
input is judged incomplete. -/
theorem isCompleteExpression_bare_args_incomplete :
    isCompleteExpression ["\\frac", "a", "b"] = false := by decide

/-- C1 (amended): `isCompleteExpression` returns false for empty input;
false if the entire sequence is a single token among the arity-requiring
commands; false if some occurrence of `\frac` (resp. `\sqrt`) is not
followed by at least 2 (resp. 1) consecutive braced `{...}` groups —
bare tokens never count as argument groups — and true otherwise. -/
theorem isCompleteExpression_iff (tokens : List String) :
    isCompleteExpression tokens = true ↔
      tokens ≠ [] ∧
      ¬(tokens.length = 1 ∧ NEEDS_ARGS.contains (tokens.getD 0 "") = true) ∧
      ∀ i, i < tokens.length →
        (tokens.getD i "" = "\\frac" →
          2 ≤ countBracedGroups (tokens.drop (i + 1))) ∧
        (tokens.getD i "" = "\\sqrt" →
          1 ≤ countBracedGroups (tokens.drop (i + 1))) := by
  unfold isCompleteExpression
  rcases tokens with _ | ⟨t, ts⟩
  · simp
  · rw [if_neg (by simp)]
    by_cases hc : (t :: ts).length = 1 ∧
        NEEDS_ARGS.contains ((t :: ts).getD 0 "") = true
    · rw [if_pos hc]
      obtain ⟨h1, h2⟩ := hc
      have hts : ts = [] := by
        cases ts with
        | nil => rfl
        | cons a l => simp at h1
      subst hts
      simp only [List.getD_cons_zero] at h2
      simp [h2]
      intro hn
      exact absurd (by simpa using h2) hn
    · rw [if_neg hc, fracSqrtOk_iff]
      exact ⟨fun h => ⟨List.cons_ne_nil _ _, hc, h⟩, fun h => h.2.2⟩

/-- Witness for the amended C1: evaluates both characterizations on the
spec's anchor examples. -/
theorem isCompleteExpression_iff_witness :
    isCompleteExpression ["3"] = true ∧
    isCompleteExpression ["\\frac", "\x7b", "1", "\x7d"] = false := by
  constructor
  · exact (isCompleteExpression_iff ["3"]).mpr (by decide)
  · have h := isCompleteExpression_iff ["\\frac", "\x7b", "1", "\x7d"]
    by_contra hne
    have : isCompleteExpression ["\\frac", "\x7b", "1", "\x7d"] = true := by
      revert hne; cases isCompleteExpression ["\\frac", "\x7b", "1", "\x7d"] <;> simp
    exact absurd ((h.mp this).2.2 0 (by decide)) (by decide)

/-! ## Stroke preprocessing (`src/core/preprocessing.ts` and the node
variant `benchmark/preprocessing-node.ts`) -/

/-- A stroke point (`StrokePoint`), coordinates modelled as `ℚ`. -/
structure Pt where
  x : ℚ
  y : ℚ
deriving DecidableEq

/-- A stroke (`Stroke`): ordered points plus a rendering width.
`lineWidth` only affects the rendered pixel contents, which are outside
the geometric properties modelled here. -/
structure Stroke where
  points : List Pt
  lineWidth : ℚ

/-- Number of loop iterations remaining in the inner
`while (covered <= dist)` loop of `resamplePoints`: used as the
termination measure. -/
def pushCount (interval dist covered : ℚ) : ℕ :=
  (⌊(dist - covered) / interval⌋ + 1).toNat

/-- The inner `while (covered <= dist)` loop of `resamplePoints`
(`preprocessing-node.ts`): pushes interpolated points at parameters
`covered / dist` and advances `covered` by `interval`; returns the pushed
points and the final value of `covered`.  The source loop diverges for
`interval ≤ 0`, so the loop guard carries `0 < interval`. -/
def pushLoop (interval : ℚ) (prev curr : Pt) (dist covered : ℚ) :
    List Pt × ℚ :=
  if h : 0 < interval ∧ covered ≤ dist then
    let t := covered / dist
    let p : Pt := ⟨prev.x + (curr.x - prev.x) * t, prev.y + (curr.y - prev.y) * t⟩
    let r := pushLoop interval prev curr dist (covered + interval)
    (p :: r.1, r.2)
  else ([], covered)
termination_by pushCount interval dist covered
decreasing_by
  obtain ⟨hi, hc⟩ := h
  simp only [pushCount]
  have he : (dist - (covered + interval)) / interval
      = (dist - covered) / interval - 1 := by
    rw [show dist - (covered + interval) = dist - covered - interval by ring,
      sub_div, div_self hi.ne']
  have ha : 0 ≤ ⌊(dist - covered) / interval⌋ :=
    Int.floor_nonneg.mpr (div_nonneg (by linarith) hi.le)
  rw [he, Int.floor_sub_one]
  omega

/-- The outer `for (i = 1; i < points.length; i++)` loop of
`resamplePoints`, carrying the arc-length budget `remaining`; the
segment length is supplied by the distance oracle `d` (in the source,
`Math.sqrt(dx*dx + dy*dy)`, which is not rational; every property proved
below holds for an arbitrary `d`). -/
def resampleGo (d : Pt → Pt → ℚ) (interval : ℚ) :
    Pt → List Pt → ℚ → List Pt
  | _, [], _ => []
  | prev, curr :: rest, remaining =>
    let dist := d prev curr
    if dist ≤ remaining then
      resampleGo d interval curr rest (remaining - dist)
    else
      let r := pushLoop interval prev curr dist remaining
      r.1 ++ resampleGo d interval curr rest (r.2 - dist)

/-- `resamplePoints(points, interval)` (`preprocessing-node.ts` lines
29-61): fewer than 2 points pass through unchanged; otherwise the output
is the first point, the interpolated interior points, then the exact last
input point. -/
def resamplePoints (d : Pt → Pt → ℚ) (points : List Pt) (interval : ℚ) :
    List Pt :=
  match points with
  | [] => []
  | [p] => [p]
  | p₀ :: p₁ :: rest =>
    p₀ :: (resampleGo d interval p₀ (p₁ :: rest) interval
      ++ [(p₁ :: rest).getLast (List.cons_ne_nil _ _)])

/-- C9: for every point sequence, every positive interval, and every
segment-length oracle (in particular the Euclidean one), `resamplePoints`
returns a sequence whose first element equals the first input point and
whose last element equals the last input point exactly; inputs of 0 or 1
points are returned unchanged. -/
theorem resamplePoints_endpoints (d : Pt → Pt → ℚ) (points : List Pt)
    (interval : ℚ) (hI : 0 < interval) :
    (points.length ≤ 1 → resamplePoints d points interval = points) ∧
    (resamplePoints d points interval).head? = points.head? ∧
    (resamplePoints d points interval).getLast? = points.getLast? := by
  match points with
  | [] => exact ⟨fun _ => rfl, rfl, rfl⟩
  | [p] => exact ⟨fun _ => rfl, rfl, rfl⟩
  | p₀ :: p₁ :: rest =>
    refine ⟨fun h => by simp at h, rfl, ?_⟩
    rw [resamplePoints, List.getLast?_cons_cons,
      show p₀ :: (resampleGo d interval p₀ (p₁ :: rest) interval
          ++ [(p₁ :: rest).getLast (List.cons_ne_nil _ _)])
        = (p₀ :: resampleGo d interval p₀ (p₁ :: rest) interval)
          ++ [(p₁ :: rest).getLast (List.cons_ne_nil _ _)] from rfl,
      List.getLast?_concat]
    exact (List.getLast?_eq_getLast _ _).symm

/-- Witness for C9 at a concrete two-point stroke with the (here exactly
computable) Euclidean distance of a 3-4-5 triangle. -/
theorem resamplePoints_endpoints_witness :
    (0 : ℚ) < 3 ∧
    (resamplePoints (fun _ _ => 5) [⟨0, 0⟩, ⟨3, 4⟩] 3).head? = some ⟨0, 0⟩ ∧
    (resamplePoints (fun _ _ => 5) [⟨0, 0⟩, ⟨3, 4⟩] 3).getLast? = some ⟨3, 4⟩ := by
  refine ⟨by norm_num, ?_, ?_⟩
  · exact (resamplePoints_endpoints (fun _ _ => 5) [⟨0, 0⟩, ⟨3, 4⟩] 3
      (by norm_num)).2.1
  · exact (resamplePoints_endpoints (fun _ _ => 5) [⟨0, 0⟩, ⟨3, 4⟩] 3
      (by norm_num)).2.2

/-! ### Tensor-builder geometry (`src/core/preprocessing.ts`) -/

def MODEL_H : ℕ := 256
def MAX_W : ℕ := 1024
def MIN_W : ℕ := 128
def W_ALIGN : ℕ := 64
def TARGET_H : ℕ := 128
def PAD : ℕ := 16

/-- All points of all strokes, in order (the iteration order of
`computeBBox`). -/
def allPoints (strokes : List Stroke) : List Pt :=
  strokes.flatMap Stroke.points

/-- `computeBBox` minimum x: the source folds `min` starting from
`Infinity`; over a nonempty point list this is the minimum of the list
(the empty case is never reached under the nonemptiness hypothesis of
the theorems below). -/
def bbMinX (ps : List Pt) : ℚ :=
  match ps with
  | [] => 0
  | p :: rest => rest.foldl (fun a q => min a q.x) p.x

def bbMaxX (ps : List Pt) : ℚ :=
  match ps with
  | [] => 0
  | p :: rest => rest.foldl (fun a q => max a q.x) p.x

def bbMinY (ps : List Pt) : ℚ :=
  match ps with
  | [] => 0
  | p :: rest => rest.foldl (fun a q => min a q.y) p.y

def bbMaxY (ps : List Pt) : ℚ :=
  match ps with
  | [] => 0
  | p :: rest => rest.foldl (fun a q => max a q.y) p.y

/-- JavaScript `Math.round` for the nonnegative values arising here:
round half away from zero is `⌊x + 1/2⌋`. -/
def jsRound (q : ℚ) : ℤ := ⌊q + 1 / 2⌋

/-- Raw canvas width from `renderStrokes`:
`max(1, ceil(maxX - minX)) + 2*PAD` (then `createCanvas` floors the
already-integral value). -/
def rawCanvasW (strokes : List Stroke) : ℕ :=
  (max 1 ⌈bbMaxX (allPoints strokes) - bbMinX (allPoints strokes)⌉).toNat
    + 2 * PAD

def rawCanvasH (strokes : List Stroke) : ℕ :=
  (max 1 ⌈bbMaxY (allPoints strokes) - bbMinY (allPoints strokes)⌉).toNat
    + 2 * PAD

/-- `scaleToFit` scale factor `min(TARGET_H / src.height, MAX_W / src.width)`. -/
def scaleFactor (srcW srcH : ℕ) : ℚ :=
  min ((TARGET_H : ℚ) / srcH) ((MAX_W : ℚ) / srcW)

/-- Scaled content width `dw = max(1, round(src.width * scale))`. -/
def scaledW (srcW srcH : ℕ) : ℕ :=
  (max 1 (jsRound (srcW * scaleFactor srcW srcH))).toNat

/-- Scaled content height `dh = max(1, round(src.height * scale))`. -/
def scaledH (srcW srcH : ℕ) : ℕ :=
  (max 1 (jsRound (srcH * scaleFactor srcW srcH))).toNat

/-- Destination canvas width
`min(MAX_W, max(MIN_W, ceil((dw + PAD) / W_ALIGN) * W_ALIGN))`. -/
def destCanvasW (dw : ℕ) : ℕ :=
  min MAX_W (max MIN_W ((⌈((dw : ℚ) + PAD) / W_ALIGN⌉).toNat * W_ALIGN))

/-- Geometric part of a `PreprocessResult`: dimensions, content extent
and the padding mask (the grayscale pixel contents live on an HTML
canvas and are not part of the geometric contract modelled here). -/
structure PreModel where
  height : ℕ
  width : ℕ
  maskHeight : ℕ
  maskWidth : ℕ
  contentH : ℕ
  contentW : ℕ
  mask : ℕ → ℕ → ℕ

/-- Geometry of `preprocessStrokes(strokes)` (`preprocessing.ts` lines
158-179): render geometry, `scaleToFit`, and the mask loop
`mask[y*canvasW + x] = y < contentH && x < contentW ? 0 : 1`. -/
def preprocessStrokes (strokes : List Stroke) : PreModel :=
  let srcW := rawCanvasW strokes
  let srcH := rawCanvasH strokes
  let dw := scaledW srcW srcH
  let dh := scaledH srcW srcH
  let canvasW := destCanvasW dw
  { height := MODEL_H
    width := canvasW
    maskHeight := MODEL_H
    maskWidth := canvasW
    contentH := dh
    contentW := dw
    mask := fun y x => if y < dh ∧ x < dw then 0 else 1 }

/-- C8: for every stroke input containing at least one point, the
preprocessing geometry satisfies: the width is a multiple of `W_ALIGN`
(64), lies in `[MIN_W, MAX_W]`, and equals
`clamp(round_up_to_multiple(scaledContentWidth + PAD, W_ALIGN), MIN_W, MAX_W)`;
the height is the fixed `MODEL_H`; and the mask entry at `(y, x)` is 1
exactly when the pixel lies outside `[0, contentH) × [0, contentW)`,
and 0 otherwise. -/
theorem preprocessStrokes_spec (strokes : List Stroke)
    (hne : allPoints strokes ≠ []) :
    let P := preprocessStrokes strokes
    W_ALIGN ∣ P.width ∧ MIN_W ≤ P.width ∧ P.width ≤ MAX_W ∧
    P.width = min MAX_W (max MIN_W
      ((⌈((P.contentW : ℚ) + PAD) / W_ALIGN⌉).toNat * W_ALIGN)) ∧
    P.height = MODEL_H ∧ P.maskHeight = MODEL_H ∧ P.maskWidth = P.width ∧
    ∀ y x, y < P.maskHeight → x < P.maskWidth →
      (P.mask y x = 1 ↔ ¬(y < P.contentH ∧ x < P.contentW)) ∧
      (P.mask y x = 0 ↔ (y < P.contentH ∧ x < P.contentW)) := by
  intro P
  have hdvd : W_ALIGN ∣ P.width := by
    have h1 : W_ALIGN ∣ MAX_W := by decide
    have h2 : W_ALIGN ∣ MIN_W := by decide
    have h3 : W_ALIGN ∣ ((⌈((P.contentW : ℚ) + PAD) / W_ALIGN⌉).toNat * W_ALIGN) :=
      Dvd.intro_left _ rfl
    show W_ALIGN ∣ destCanvasW P.contentW
    unfold destCanvasW
    rcases min_choice MAX_W
        (max MIN_W ((⌈((P.contentW : ℚ) + PAD) / W_ALIGN⌉).toNat * W_ALIGN)) with
      hm | hm <;> rw [hm]
    · exact h1
    · rcases max_choice MIN_W
          ((⌈((P.contentW : ℚ) + PAD) / W_ALIGN⌉).toNat * W_ALIGN) with
        hx | hx <;> rw [hx]
      · exact h2
      · exact h3
  refine ⟨hdvd, ?_, ?_, rfl, rfl, rfl, rfl, ?_⟩
  · show MIN_W ≤ destCanvasW P.contentW
    unfold destCanvasW
    exact le_min (by decide) (le_max_left _ _)
  · exact min_le_left _ _
  · intro y x _ _
    constructor
    · show (if y < P.contentH ∧ x < P.contentW then 0 else 1) = 1 ↔ _
      split <;> simp_all
    · show (if y < P.contentH ∧ x < P.contentW then 0 else 1) = 0 ↔ _
      split <;> simp_all

/-- Witness for C8 at a concrete one-stroke input. -/
theorem preprocessStrokes_spec_witness :
    allPoints [⟨[⟨0, 0⟩, ⟨10, 20⟩], 2⟩] ≠ [] ∧
    (preprocessStrokes [⟨[⟨0, 0⟩, ⟨10, 20⟩], 2⟩]).height = MODEL_H := by
  refine ⟨by decide, ?_⟩
  exact (preprocessStrokes_spec [⟨[⟨0, 0⟩, ⟨10, 20⟩], 2⟩] (by decide)).2.2.2.2.1

/-! ## Decoding engine (`src/core/inference.worker.ts`)

The external ONNX decoder is abstracted as `exec : List ℕ → List ℚ`,
giving the (finite) log-softmax scores of the final position for the
current id sequence.  Vocabulary masking introduces `-Infinity`, modelled
as `⊥` in `WithBot ℚ`. -/

/-- A log-probability: a rational or `-Infinity`. -/
abbrev Score := WithBot ℚ

/-- The `for (i = 0; i < vocabSize; i++)` loop of `applyModeMask`
(`inference.worker.ts` lines 131-142): entries at disallowed indices
become `-Infinity`, allowed entries are unchanged. -/
def maskGo (f : ℕ → Bool) : ℕ → List ℚ → List Score
  | _, [] => []
  | i, v :: vs => (if f i then (v : Score) else ⊥) :: maskGo f (i + 1) vs

/-- `applyModeMask(logProbs, vocabSize, allowed)`: `null` leaves the
scores unchanged (up to the embedding into `Score`); a whitelist `f`
masks every index outside it. -/
def applyModeMask (logProbs : List ℚ) : Option (ℕ → Bool) → List Score
  | none => logProbs.map (fun v : ℚ => (v : Score))
  | some f => maskGo f 0 logProbs

/-- The argmax loop `maxVal = -Infinity; maxIdx = 0;
for (i...) if (logProbs[i] > maxVal) { maxVal = ...; maxIdx = i }`:
strict `>` keeps the earliest maximal index. -/
def argmaxGo : List Score → ℕ → ℕ × Score → ℕ × Score
  | [], _, best => best
  | v :: vs, i, best =>
    argmaxGo vs (i + 1) (if best.2 < v then (i, v) else best)

/-- The argmax index selected by the decode loops. -/
def maskedArgmax (l : List Score) : ℕ := (argmaxGo l 0 (0, ⊥)).1

/-- `REPEAT_LIMIT` (`inference.worker.ts` line 6). -/
def REPEAT_LIMIT : ℕ := 3

/-- The greedy decode loop (`inference.worker.ts` lines 211-239),
parameterised by the remaining step budget; returns the final id
sequence (still carrying the leading `sos`) together with the number of
decoder invocations performed. -/
def greedyGo (exec : List ℕ → List ℚ) (allowed : Option (ℕ → Bool))
    (eos : ℕ) : ℕ → List ℕ → ℕ → ℤ → List ℕ × ℕ
  | 0, ids, _, _ => (ids, 0)
  | n + 1, ids, rc, lt =>
    let m := maskedArgmax (applyModeMask (exec ids) allowed)
    if m = eos then (ids, 1)
    else if (m : ℤ) = lt then
      if REPEAT_LIMIT ≤ rc + 1 then (ids, 1)
      else
        let r := greedyGo exec allowed eos n (ids ++ [m]) (rc + 1) (m : ℤ)
        (r.1, r.2 + 1)
    else
      let r := greedyGo exec allowed eos n (ids ++ [m]) 0 (m : ℤ)
      (r.1, r.2 + 1)

/-- Greedy decode: seed `[sos]`, `repeatCount = 0`, `lastToken = -1`;
strip the leading `sos` from the result (`ids.slice(1)`). -/
def greedyDecode (exec : List ℕ → List ℚ) (allowed : Option (ℕ → Bool))
    (sos eos maxSteps : ℕ) : List ℕ × ℕ :=
  let r := greedyGo exec allowed eos maxSteps [sos] 0 (-1)
  (r.1.drop 1, r.2)

theorem greedyGo_steps (exec : List ℕ → List ℚ)
    (allowed : Option (ℕ → Bool)) (eos : ℕ) :
    ∀ (n : ℕ) (ids : List ℕ) (rc : ℕ) (lt : ℤ),
      (greedyGo exec allowed eos n ids rc lt).2 ≤ n ∧
      (greedyGo exec allowed eos n ids rc lt).1.length ≤
        ids.length + (greedyGo exec allowed eos n ids rc lt).2 := by
  intro n
  induction n with
  | zero => intro ids rc lt; simp [greedyGo]
  | succ n ih =>
    intro ids rc lt
    by_cases h1 : maskedArgmax (applyModeMask (exec ids) allowed) = eos
    · simp [greedyGo, h1]
    · by_cases h2 :
          ((maskedArgmax (applyModeMask (exec ids) allowed) : ℕ) : ℤ) = lt
      · subst h2
        by_cases h3 : REPEAT_LIMIT ≤ rc + 1
        · simp [greedyGo, h1, h3]
        · have := ih (ids ++ [maskedArgmax (applyModeMask (exec ids) allowed)])
            (rc + 1) ((maskedArgmax (applyModeMask (exec ids) allowed) : ℤ))
          simp only [greedyGo, h1, h3, if_neg, if_pos, if_false, if_true,
            eq_self_iff_true]
          simp only [List.length_append, List.length_singleton] at this ⊢
          omega
      · have := ih (ids ++ [maskedArgmax (applyModeMask (exec ids) allowed)])
          0 ((maskedArgmax (applyModeMask (exec ids) allowed) : ℤ))
        simp only [greedyGo, h1, h2, if_neg, if_false]
        simp only [List.length_append, List.length_singleton] at this ⊢
        omega

/-- C4: greedy decode performs at most `maxSteps` decoder invocations for
every sequence of executor responses, its output (with `sos` stripped)
has at most `maxSteps` tokens, and it stops immediately (empty output)
when the first masked argmax is already `eos`. -/
theorem greedyDecode_max_steps (exec : List ℕ → List ℚ)
    (allowed : Option (ℕ → Bool)) (sos eos maxSteps : ℕ) :
    (greedyDecode exec allowed sos eos maxSteps).2 ≤ maxSteps ∧
    (greedyDecode exec allowed sos eos maxSteps).1.length ≤ maxSteps ∧
    (maskedArgmax (applyModeMask (exec [sos]) allowed) = eos →
      (greedyDecode exec allowed sos eos maxSteps).1 = []) := by
  obtain ⟨hsteps, hlen⟩ := greedyGo_steps exec allowed eos maxSteps [sos] 0 (-1)
  refine ⟨hsteps, ?_, ?_⟩
  · simp only [greedyDecode, List.length_drop]
    simp only [List.length_singleton] at hlen
    omega
  · intro h
    cases maxSteps with
    | zero => simp [greedyDecode, greedyGo]
    | succ n => simp [greedyDecode, greedyGo, h]

/-! ### Trailing runs and the repeat limit -/

/-- Length of the maximal trailing run of `x` in `l`. -/
def trailingRun (l : List ℕ) (x : ℕ) : ℕ :=
  (l.reverse.takeWhile (fun a => a == x)).length

theorem trailingRun_concat_self (l : List ℕ) (x : ℕ) :
    trailingRun (l ++ [x]) x = trailingRun l x + 1 := by
  simp [trailingRun, List.takeWhile]

theorem trailingRun_concat_ne (l : List ℕ) {x y : ℕ} (h : y ≠ x) :
    trailingRun (l ++ [y]) x = 0 := by
  simp [trailingRun, List.takeWhile, h]

theorem trailingRun_eq_zero_of_getLast? (l : List ℕ) (x : ℕ)
    (h : l.getLast? ≠ some x) : trailingRun l x = 0 := by
  rcases l.eq_nil_or_concat with rfl | ⟨l', y, rfl⟩
  · rfl
  · have hy : y ≠ x := by simpa [List.getLast?_concat] using h
    rw [List.concat_eq_append]
    exact trailingRun_concat_ne _ hy

theorem takeWhile_replicate_append_length (x : ℕ) :
    ∀ (k : ℕ) (r : List ℕ),
      k ≤ (List.takeWhile (fun a => a == x)
        (List.replicate k x ++ r)).length := by
  intro k
  induction k with
  | zero => intro r; simp
  | succ k ih =>
    intro r
    simp only [List.replicate_succ, List.cons_append, List.takeWhile,
      beq_self_eq_true, List.length_cons]
    exact Nat.succ_le_succ (ih r)

theorem le_trailingRun_of_replicate_suffix {k x : ℕ} {l : List ℕ}
    (h : List.replicate k x <:+ l) : k ≤ trailingRun l x := by
  obtain ⟨t, rfl⟩ := h
  unfold trailingRun
  rw [List.reverse_append, List.reverse_replicate]
  exact takeWhile_replicate_append_length x k t.reverse

/-- No `REPEAT_LIMIT + 1` consecutive equal tokens anywhere in `l`. -/
def noLongRun (l : List ℕ) : Prop :=
  ∀ x, ¬ List.replicate (REPEAT_LIMIT + 1) x <:+: l

theorem infix_concat_cases {α : Type} {s l : List α} {m : α}
    (h : s <:+: l ++ [m]) : s <:+: l ∨ s <:+ l ++ [m] := by
  obtain ⟨t, u, hu⟩ := h
  rcases u.eq_nil_or_concat with rfl | ⟨u', m', rfl⟩
  · right
    exact ⟨t, by simpa using hu⟩
  · left
    have h2 : (t ++ s ++ u') ++ [m'] = l ++ [m] := by
      simpa [List.append_assoc] using hu
    have h3 := (List.append_inj' h2 rfl).1
    exact ⟨t, u', by simp [h3]⟩

theorem noLongRun_nil : noLongRun [] := by
  intro x h
  have := h.length_le
  simp [REPEAT_LIMIT] at this

theorem noLongRun_concat {l : List ℕ} {m : ℕ} (h1 : noLongRun l)
    (h2 : trailingRun (l ++ [m]) m ≤ REPEAT_LIMIT) :
    noLongRun (l ++ [m]) := by
  intro x hinf
  rcases infix_concat_cases hinf with h | h
  · exact h1 x h
  · have h4 : REPEAT_LIMIT + 1 ≤ trailingRun (l ++ [m]) x :=
      le_trailingRun_of_replicate_suffix h
    by_cases hx : x = m
    · subst hx; omega
    · rw [trailingRun_concat_ne _ (fun hy => hx hy.symm)] at h4
      omega

/-- Loop invariant of the greedy repeat counter: either nothing has been
generated yet (`lastToken = -1`), or the generated part ends in
`lastToken` with a trailing run of exactly `repeatCount + 1`. -/
def gInv (ids : List ℕ) (rc : ℕ) (lt : ℤ) : Prop :=
  (lt = -1 ∧ ids.drop 1 = []) ∨
  (0 ≤ lt ∧ (ids.drop 1).getLast? = some lt.toNat ∧
    trailingRun (ids.drop 1) lt.toNat = rc + 1)

theorem greedyGo_noLongRun (exec : List ℕ → List ℚ)
    (allowed : Option (ℕ → Bool)) (eos : ℕ) :
    ∀ (n : ℕ) (ids : List ℕ) (rc : ℕ) (lt : ℤ), ids ≠ [] →
      gInv ids rc lt → rc + 1 ≤ REPEAT_LIMIT →
      noLongRun (ids.drop 1) →
      noLongRun ((greedyGo exec allowed eos n ids rc lt).1.drop 1) := by
  intro n
  induction n with
  | zero => intro ids rc lt _ _ _ h; exact h
  | succ n ih =>
    intro ids rc lt hne hinv hrc hrun
    set m := maskedArgmax (applyModeMask (exec ids) allowed) with hm
    obtain ⟨i₀, ids', rfl⟩ : ∃ a t, ids = a :: t := by
      rcases ids with _ | ⟨a, t⟩
      · exact absurd rfl hne
      · exact ⟨a, t, rfl⟩
    have hdrop : (i₀ :: ids').drop 1 = ids' := rfl
    by_cases h1 : m = eos
    · simpa [greedyGo, ← hm, h1] using hrun
    · by_cases h2 : (m : ℤ) = lt
      · subst h2
        by_cases h3 : REPEAT_LIMIT ≤ rc + 1
        · simpa [greedyGo, ← hm, h1, h3] using hrun
        · -- push the repeated token: the trailing run grows to rc + 2 ≤ 3
          have hrun' : trailingRun ids' m = rc + 1 := by
            rcases hinv with ⟨hlt, _⟩ | ⟨_, _, htr⟩
            · exact absurd hlt (by omega)
            · simpa [hdrop] using htr
          have htr' : trailingRun (ids' ++ [m]) m = rc + 2 := by
            rw [trailingRun_concat_self, hrun']
          have hinv' : gInv ((i₀ :: ids') ++ [m]) (rc + 1) (m : ℤ) := by
            right
            refine ⟨Int.natCast_nonneg m, ?_, ?_⟩
            · simp [List.getLast?_concat]
            · simpa using htr'
          have hnr' : noLongRun (((i₀ :: ids') ++ [m]).drop 1) := by
            simp only [List.cons_append, List.drop_succ_cons, List.drop_zero]
            exact noLongRun_concat (by simpa [hdrop] using hrun)
              (by rw [htr']; omega)
          have := ih ((i₀ :: ids') ++ [m]) (rc + 1) (m : ℤ) (by simp)
            hinv' (by omega) hnr'
          simpa [greedyGo, ← hm, h1, h3] using this
      · -- push a fresh token: the trailing run resets to 1
        have hzero : trailingRun ids' m = 0 := by
          rcases hinv with ⟨_, hgen⟩ | ⟨hlt, hlast, _⟩
          · rw [hdrop] at hgen; rw [hgen]; rfl
          · apply trailingRun_eq_zero_of_getLast?
            rw [hdrop] at hlast
            rw [hlast]
            intro hc
            apply h2
            have hm' : lt.toNat = m := by injection hc
            rw [← hm', Int.toNat_of_nonneg hlt]
        have htr' : trailingRun (ids' ++ [m]) m = 1 := by
          rw [trailingRun_concat_self, hzero]
        have hinv' : gInv ((i₀ :: ids') ++ [m]) 0 (m : ℤ) := by
          right
          refine ⟨Int.natCast_nonneg m, ?_, ?_⟩
          · simp [List.getLast?_concat]
          · simpa using htr'
        have hnr' : noLongRun (((i₀ :: ids') ++ [m]).drop 1) := by
          simp only [List.cons_append, List.drop_succ_cons, List.drop_zero]
          exact noLongRun_concat (by simpa [hdrop] using hrun)
            (by rw [htr']; simp [REPEAT_LIMIT])
        have := ih ((i₀ :: ids') ++ [m]) 0 (m : ℤ) (by simp)
          hinv' (by simp [REPEAT_LIMIT]) hnr'
        simpa [greedyGo, ← hm, h1, h2] using this

/-- C10: for every sequence of executor responses, the token sequence
returned by greedy decode never contains more than `REPEAT_LIMIT` (3)
consecutive occurrences of the same token: the loop breaks on the step
that would append a fourth consecutive copy, before pushing it. -/
theorem greedyDecode_no_long_runs (exec : List ℕ → List ℚ)
    (allowed : Option (ℕ → Bool)) (sos eos maxSteps : ℕ) (x n : ℕ)
    (h : List.replicate n x <:+: (greedyDecode exec allowed sos eos maxSteps).1) :
    n ≤ REPEAT_LIMIT := by
  by_contra hgt
  push_neg at hgt
  have hsplit : List.replicate n x
      = List.replicate (REPEAT_LIMIT + 1) x ++ List.replicate (n - (REPEAT_LIMIT + 1)) x := by
    rw [← List.replicate_add]
    congr 1
    omega
  have hinf : List.replicate (REPEAT_LIMIT + 1) x
      <:+: (greedyDecode exec allowed sos eos maxSteps).1 := by
    refine List.IsInfix.trans ?_ h
    rw [hsplit]
    exact (List.prefix_append _ _).isInfix
  have hnr : noLongRun ((greedyGo exec allowed eos maxSteps [sos] 0 (-1)).1.drop 1) :=
    greedyGo_noLongRun exec allowed eos maxSteps [sos] 0 (-1)
      (by simp) (Or.inl ⟨rfl, rfl⟩) (by simp [REPEAT_LIMIT]) noLongRun_nil
  exact hnr x hinf

/-- Witness for C10: a constant executor whose argmax is always token 1
generates exactly three consecutive copies of 1 before the repeat limit
stops the loop. -/
theorem greedyDecode_no_long_runs_witness :
    (List.replicate 3 1 <:+: (greedyDecode (fun _ => [0, 1]) none 9 5 10).1) ∧
    (3 : ℕ) ≤ REPEAT_LIMIT :=
  ⟨by decide,
   greedyDecode_no_long_runs (fun _ => [0, 1]) none 9 5 10 1 3 (by decide)⟩

/-! ### Properties of the argmax loop -/

theorem argmaxGo_acc_le :
    ∀ (l : List Score) (i0 : ℕ) (best : ℕ × Score),
      best.2 ≤ (argmaxGo l i0 best).2 := by
  intro l
  induction l with
  | nil => intro i0 best; exact le_refl _
  | cons v vs ih =>
    intro i0 best
    simp only [argmaxGo]
    by_cases h : best.2 < v
    · simp only [if_pos h]
      exact le_trans h.le (ih (i0 + 1) (i0, v))
    · simp only [if_neg h]
      exact ih (i0 + 1) best

theorem argmaxGo_elem_le :
    ∀ (l : List Score) (i0 : ℕ) (best : ℕ × Score) (j : ℕ), j < l.length →
      l.getD j ⊥ ≤ (argmaxGo l i0 best).2 := by
  intro l
  induction l with
  | nil => intro i0 best j hj; simp at hj
  | cons v vs ih =>
    intro i0 best j hj
    simp only [argmaxGo]
    cases j with
    | zero =>
      by_cases h : best.2 < v
      · simp only [if_pos h]
        exact argmaxGo_acc_le vs (i0 + 1) (i0, v)
      · simp only [if_neg h, List.getD_cons_zero]
        exact le_trans (not_lt.mp h) (argmaxGo_acc_le vs (i0 + 1) best)
    | succ j =>
      simp only [List.getD_cons_succ]
      by_cases h : best.2 < v
      · simp only [if_pos h]
        exact ih (i0 + 1) (i0, v) j (by simpa using hj)
      · simp only [if_neg h]
        exact ih (i0 + 1) best j (by simpa using hj)

theorem argmaxGo_of_all_le :
    ∀ (l : List Score) (i0 : ℕ) (best : ℕ × Score),
      (∀ j, j < l.length → l.getD j ⊥ ≤ best.2) →
      argmaxGo l i0 best = best := by
  intro l
  induction l with
  | nil => intro i0 best _; rfl
  | cons v vs ih =>
    intro i0 best hall
    have h0 : v ≤ best.2 := by simpa using hall 0 (Nat.succ_pos _)
    simp only [argmaxGo, if_neg (not_lt.mpr h0)]
    exact ih (i0 + 1) best fun j hj => by
      simpa using hall (j + 1) (by simpa using hj)

/-- The argmax loop selects the earliest index attaining the maximum,
whenever something in the list strictly beats the accumulator. -/
theorem argmaxGo_first_max :
    ∀ (l : List Score) (i0 : ℕ) (best : ℕ × Score),
      (∃ j, j < l.length ∧ best.2 < l.getD j ⊥) →
      ∃ j, j < l.length ∧ argmaxGo l i0 best = (i0 + j, l.getD j ⊥) ∧
        (∀ i, i < l.length → l.getD i ⊥ ≤ l.getD j ⊥) ∧
        (∀ i, i < j → l.getD i ⊥ < l.getD j ⊥) ∧
        best.2 < l.getD j ⊥ := by
  intro l
  induction l with
  | nil => intro i0 best ⟨j, hj, _⟩; simp at hj
  | cons v vs ih =>
    intro i0 best hex
    by_cases h : best.2 < v
    · -- the accumulator is updated to (i0, v)
      by_cases hbeat : ∃ j, j < vs.length ∧ v < vs.getD j ⊥
      · obtain ⟨j, hj, hrec, hmax, hfirst, hgt⟩ := ih (i0 + 1) (i0, v) hbeat
        refine ⟨j + 1, by simpa using hj, ?_, ?_, ?_, ?_⟩
        · simp only [argmaxGo, if_pos h]
          rw [hrec]
          simp only [List.getD_cons_succ]
          congr 1
          omega
        · intro i hi
          cases i with
          | zero => simpa using hgt.le
          | succ i => simpa using hmax i (by simpa using hi)
        · intro i hi
          cases i with
          | zero => simpa using hgt
          | succ i => simpa using hfirst i (by omega)
        · simpa using lt_trans h hgt
      · push_neg at hbeat
        refine ⟨0, Nat.succ_pos _, ?_, ?_, ?_, ?_⟩
        · simp only [argmaxGo, if_pos h]
          rw [argmaxGo_of_all_le vs (i0 + 1) (i0, v) hbeat]
          simp
        · intro i hi
          cases i with
          | zero => exact le_refl _
          | succ i => simpa using hbeat i (by simpa using hi)
        · intro i hi; omega
        · simpa using h
    · -- the accumulator is kept; the strict witness must be in the tail
      obtain ⟨j, hj, hgt⟩ := hex
      have hj' : ∃ j, j < vs.length ∧ best.2 < vs.getD j ⊥ := by
        cases j with
        | zero => exact absurd (by simpa using hgt) h
        | succ j => exact ⟨j, by simpa using hj, by simpa using hgt⟩
      obtain ⟨j', hjl, hrec, hmax, hfirst, hgt'⟩ := ih (i0 + 1) best hj'
      have hvle : v ≤ best.2 := not_lt.mp h
      refine ⟨j' + 1, by simpa using hjl, ?_, ?_, ?_, ?_⟩
      · simp only [argmaxGo, if_neg h]
        rw [hrec]
        simp only [List.getD_cons_succ]
        congr 1
        omega
      · intro i hi
        cases i with
        | zero => simpa using le_trans hvle hgt'.le
        | succ i => simpa using hmax i (by simpa using hi)
      · intro i hi
        cases i with
        | zero => simpa using lt_of_le_of_lt hvle hgt'
        | succ i => simpa using hfirst i (by omega)
      · simpa using hgt'

theorem maskGo_length (f : ℕ → Bool) :
    ∀ (vs : List ℚ) (i : ℕ), (maskGo f i vs).length = vs.length := by
  intro vs
  induction vs with
  | nil => intro i; rfl
  | cons v t ih => intro i; simp [maskGo, ih]

theorem maskGo_getD (f : ℕ → Bool) :
    ∀ (vs : List ℚ) (i j : ℕ), j < vs.length →
      (maskGo f i vs).getD j ⊥ =
        if f (i + j) = true then ((vs.getD j 0 : ℚ) : Score) else ⊥ := by
  intro vs
  induction vs with
  | nil => intro i j hj; simp at hj
  | cons v t ih =>
    intro i j hj
    cases j with
    | zero => simp [maskGo]
    | succ j =>
      have h := ih (i + 1) j (by simpa using hj)
      simp only [maskGo, List.getD_cons_succ]
      rw [h, show i + 1 + j = i + (j + 1) from by omega]

/-- C5: vocabulary masking forces the log-probability of every token
outside the whitelist to `-Infinity` (`⊥`) while leaving whitelisted
tokens unchanged; consequently a masked argmax never selects a
disallowed token, provided some allowed token is in range (its
log-probability, being the log-softmax of finite logits, is finite). -/
theorem applyModeMask_spec (lp : List ℚ) (f : ℕ → Bool) :
    (applyModeMask lp (some f)).length = lp.length ∧
    (∀ i, i < lp.length →
      (applyModeMask lp (some f)).getD i ⊥ =
        if f i = true then ((lp.getD i 0 : ℚ) : Score) else ⊥) ∧
    applyModeMask lp none = lp.map (fun v : ℚ => (v : Score)) ∧
    ((∃ i, i < lp.length ∧ f i = true) →
      f (maskedArgmax (applyModeMask lp (some f))) = true ∧
      maskedArgmax (applyModeMask lp (some f)) < lp.length) := by
  have hMdef : applyModeMask lp (some f) = maskGo f 0 lp := rfl
  refine ⟨maskGo_length f lp 0, ?_, rfl, ?_⟩
  · intro i hi
    rw [hMdef]
    simpa using maskGo_getD f lp 0 i hi
  · rintro ⟨i, hi, hfi⟩
    rw [hMdef]
    have hMlen : (maskGo f 0 lp).length = lp.length := maskGo_length f lp 0
    have hMi : (maskGo f 0 lp).getD i ⊥ = ((lp.getD i 0 : ℚ) : Score) := by
      rw [maskGo_getD f lp 0 i hi]
      simp [hfi]
    have hbeat : ∃ j, j < (maskGo f 0 lp).length ∧
        ((0, (⊥ : Score)) : ℕ × Score).2 < (maskGo f 0 lp).getD j ⊥ := by
      refine ⟨i, by omega, ?_⟩
      rw [hMi]
      exact WithBot.bot_lt_coe _
    obtain ⟨j, hj, hrec, hmax, _, hgt⟩ :=
      argmaxGo_first_max (maskGo f 0 lp) 0 (0, ⊥) hbeat
    have hidx : maskedArgmax (maskGo f 0 lp) = j := by
      unfold maskedArgmax
      rw [hrec]
      simp
    have hfj : f j = true := by
      by_contra hc
      have hbot : (maskGo f 0 lp).getD j ⊥ = ⊥ := by
        rw [maskGo_getD f lp 0 j (by omega)]
        simp only [Bool.not_eq_true] at hc
        simp [hc]
      rw [hbot] at hgt
      exact absurd hgt (lt_irrefl _)
    rw [hidx]
    exact ⟨hfj, by omega⟩

/-- Witness for C5: token 0 is disallowed and has the highest raw
log-probability, yet the masked argmax selects the allowed token 1. -/
theorem applyModeMask_spec_witness :
    (∃ i, i < ([(1 : ℚ) / 2, -3] : List ℚ).length ∧ (fun k => k == 1) i = true) ∧
    (fun k => k == 1) (maskedArgmax (applyModeMask [(1 : ℚ) / 2, -3]
      (some (fun k => k == 1)))) = true :=
  ⟨⟨1, by decide, by decide⟩,
   ((applyModeMask_spec [(1 : ℚ) / 2, -3] (fun k => k == 1)).2.2.2
     ⟨1, by decide, by decide⟩).1⟩

/-! ### Beam search (`inference.worker.ts` lines 240-304) -/

/-- `Beam` (`inference.worker.ts` lines 169-173). -/
structure Beam where
  logProb : Score
  ids : List ℕ
  finished : Bool
deriving DecidableEq

/-- The length-normalized score `b.logProb / Math.max(b.ids.length, 1)`
used by every ranking step. -/
def nscore (b : Beam) : Score :=
  b.logProb.map (fun p => p / ((max b.ids.length 1 : ℕ) : ℚ))

/-- `a` ranks at least as high as `b`: the ECMAScript stable sort with
comparator `(a, b) => nscore b - nscore a` sorts descending by `nscore`
(a `NaN` comparator result — both scores `-Infinity` — is treated as
`+0`, i.e. a tie). -/
def beamGE (a b : Beam) : Prop := nscore b ≤ nscore a

instance : DecidableRel beamGE :=
  fun a b => inferInstanceAs (Decidable (nscore b ≤ nscore a))

instance : IsTotal Beam beamGE := ⟨fun a b => le_total (nscore b) (nscore a)⟩

instance : IsTrans Beam beamGE := ⟨fun _ _ _ hab hbc => le_trans hbc hab⟩

/-- The stable descending sort of a candidate list (JS
`candidates.sort((a, b) => normB - normA)`). -/
def sortBeams (l : List Beam) : List Beam := List.insertionSort beamGE l

/-- Index `i` scores at least as high as index `j` in `arr`. -/
def scoreGE (arr : List Score) (i j : ℕ) : Prop :=
  arr.getD j ⊥ ≤ arr.getD i ⊥

instance (arr : List Score) : DecidableRel (scoreGE arr) :=
  fun i j => inferInstanceAs (Decidable (arr.getD j ⊥ ≤ arr.getD i ⊥))

/-- `topK(arr, k)` (`inference.worker.ts` lines 144-148): stable sort of
all indices by score descending, then take the first `k`. -/
def topK (arr : List Score) (k : ℕ) : List ℕ :=
  (List.insertionSort (scoreGE arr) (List.range arr.length)).take k

/-- One candidate constructed from an open beam and a candidate token
(`inference.worker.ts` lines 255-284): `eos`, or a token whose trailing
run in the generated part already reached `REPEAT_LIMIT`, finishes the
beam with frozen ids; anything else extends the beam as open. -/
def mkCand (beam : Beam) (lp : List Score) (eos idx : ℕ) : Beam :=
  let newLogProb := beam.logProb + lp.getD idx 0
  if idx = eos then { logProb := newLogProb, ids := beam.ids, finished := true }
  else if REPEAT_LIMIT ≤ trailingRun (beam.ids.drop 1) idx then
    { logProb := newLogProb, ids := beam.ids, finished := true }
  else { logProb := newLogProb, ids := beam.ids ++ [idx], finished := false }

/-- Expansion of one beam: finished beams pass through unchanged; open
beams contribute one candidate per top-`2B` token. -/
def expandBeam (exec : List ℕ → List ℚ) (allowed : Option (ℕ → Bool))
    (eos B : ℕ) (beam : Beam) : List Beam :=
  if beam.finished then [beam]
  else
    let lp := applyModeMask (exec beam.ids) allowed
    (topK lp (B * 2)).map (mkCand beam lp eos)

/-- One expansion round: expand every beam, rank all candidates (open and
finished together) by `nscore`, keep the top `B`. -/
def beamStep (exec : List ℕ → List ℚ) (allowed : Option (ℕ → Bool))
    (eos B : ℕ) (beams : List Beam) : List Beam :=
  (sortBeams (beams.flatMap (expandBeam exec allowed eos B))).take B

/-- The `for (step...)` loop with early exit once every surviving beam is
finished. -/
def beamLoop (exec : List ℕ → List ℚ) (allowed : Option (ℕ → Bool))
    (eos B : ℕ) : ℕ → List Beam → List Beam
  | 0, beams => beams
  | n + 1, beams =>
    let b' := beamStep exec allowed eos B beams
    if b'.all (·.finished) then b' else beamLoop exec allowed eos B n b'

/-- `beamDecode` termination (`inference.worker.ts` lines 294-303):
prefer finished beams, rank by `nscore`, return up to `B` candidates as
`(ids-without-sos, logProb)`, best first. -/
def beamDecode (exec : List ℕ → List ℚ) (allowed : Option (ℕ → Bool))
    (sos eos B maxSteps : ℕ) : List (List ℕ × Score) :=
  let beams := beamLoop exec allowed eos B maxSteps
    [{ logProb := (0 : ℚ), ids := [sos], finished := false }]
  let completed := beams.filter (·.finished)
  let pool := if 0 < completed.length then completed else beams
  ((sortBeams pool).take B).map (fun b => (b.ids.drop 1, b.logProb))

/-- C3: in every expansion of a non-finished beam, a candidate token that
is `eos` or continues the trailing run to `REPEAT_LIMIT` produces a
finished beam with frozen ids; every other candidate token is appended
as a new open beam; finished beams enter every later candidate pool
unchanged; and candidates come from the top `2B` tokens. -/
theorem beamExpand_finish_rules (exec : List ℕ → List ℚ)
    (allowed : Option (ℕ → Bool)) (eos B : ℕ) :
    (∀ beam : Beam, beam.finished = true →
      expandBeam exec allowed eos B beam = [beam]) ∧
    (∀ beam : Beam, beam.finished = false →
      expandBeam exec allowed eos B beam =
        (topK (applyModeMask (exec beam.ids) allowed) (B * 2)).map
          (mkCand beam (applyModeMask (exec beam.ids) allowed) eos)) ∧
    (∀ (beam : Beam) (lp : List Score) (idx : ℕ),
      ((idx = eos ∨ REPEAT_LIMIT ≤ trailingRun (beam.ids.drop 1) idx) →
        (mkCand beam lp eos idx).finished = true ∧
        (mkCand beam lp eos idx).ids = beam.ids) ∧
      (idx ≠ eos → trailingRun (beam.ids.drop 1) idx < REPEAT_LIMIT →
        (mkCand beam lp eos idx).finished = false ∧
        (mkCand beam lp eos idx).ids = beam.ids ++ [idx]) ∧
      (mkCand beam lp eos idx).logProb = beam.logProb + lp.getD idx 0) ∧
    (∀ (beams : List Beam), ∀ b ∈ beams, b.finished = true →
      b ∈ beams.flatMap (expandBeam exec allowed eos B)) ∧
    (∀ lp : List Score, (topK lp (B * 2)).length = min (B * 2) lp.length) := by
  refine ⟨?_, ?_, ?_, ?_, ?_⟩
  · intro beam h
    simp [expandBeam, h]
  · intro beam h
    simp [expandBeam, h]
  · intro beam lp idx
    refine ⟨?_, ?_, ?_⟩
    · rintro (rfl | h)
      · simp [mkCand]
      · by_cases he : idx = eos
        · subst he; simp [mkCand]
        · rw [List.drop_one] at h
          simp [mkCand, he, h]
    · intro he hr
      rw [List.drop_one] at hr
      simp [mkCand, he, not_le.mpr hr]
    · by_cases he : idx = eos
      · subst he; simp [mkCand]
      · simp only [mkCand, if_neg he]
        split <;> rfl
  · intro beams b hb hfin
    rw [List.mem_flatMap]
    exact ⟨b, hb, by simp [expandBeam, hfin]⟩
  · intro lp
    simp [topK, List.length_take, List.length_insertionSort]

/-- Witness for C3 at a concrete open beam: token 0 (`eos`) finishes with
frozen ids, token 1 with a saturated trailing run finishes with frozen
ids, token 2 extends the beam. -/
theorem beamExpand_finish_rules_witness :
    ((mkCand ⟨(0 : ℚ), [9, 1, 1, 1], false⟩ [] 0 0).finished = true ∧
      (mkCand ⟨(0 : ℚ), [9, 1, 1, 1], false⟩ [] 0 0).ids = [9, 1, 1, 1]) ∧
    ((mkCand ⟨(0 : ℚ), [9, 1, 1, 1], false⟩ [] 0 1).finished = true ∧
      (mkCand ⟨(0 : ℚ), [9, 1, 1, 1], false⟩ [] 0 1).ids = [9, 1, 1, 1]) ∧
    ((mkCand ⟨(0 : ℚ), [9, 1, 1, 1], false⟩ [] 0 2).finished = false ∧
      (mkCand ⟨(0 : ℚ), [9, 1, 1, 1], false⟩ [] 0 2).ids = [9, 1, 1, 1, 2]) :=
  ⟨((beamExpand_finish_rules (fun _ => []) none 0 1).2.2.1
      ⟨(0 : ℚ), [9, 1, 1, 1], false⟩ [] 0).1 (Or.inl rfl),
   ((beamExpand_finish_rules (fun _ => []) none 0 1).2.2.1
      ⟨(0 : ℚ), [9, 1, 1, 1], false⟩ [] 1).1 (Or.inr (by decide)),
   ((beamExpand_finish_rules (fun _ => []) none 0 1).2.2.1
      ⟨(0 : ℚ), [9, 1, 1, 1], false⟩ [] 2).2.1 (by decide) (by decide)⟩

theorem head?_append_of_head? {α : Type} {l : List α} {x : α} (t : List α)
    (h : l.head? = some x) : (l ++ t).head? = some x := by
  cases l with
  | nil => simp at h
  | cons a l' => simpa using h

/-- Every beam surviving `beamStep` is one of the round's candidates. -/
theorem mem_of_mem_beamStep {exec : List ℕ → List ℚ}
    {allowed : Option (ℕ → Bool)} {eos B : ℕ} {beams : List Beam} {b : Beam}
    (h : b ∈ beamStep exec allowed eos B beams) :
    b ∈ beams.flatMap (expandBeam exec allowed eos B) := by
  have h1 : b ∈ sortBeams (beams.flatMap (expandBeam exec allowed eos B)) :=
    (List.take_sublist _ _).mem h
  exact (List.perm_insertionSort beamGE _).mem_iff.mp h1

/-- Candidates preserve a leading `sos`. -/
theorem expandBeam_head_inv {exec : List ℕ → List ℚ}
    {allowed : Option (ℕ → Bool)} {eos B sos : ℕ} {a b : Beam}
    (ha : a.ids.head? = some sos) (hb : b ∈ expandBeam exec allowed eos B a) :
    b.ids.head? = some sos := by
  unfold expandBeam at hb
  split at hb
  · rw [List.mem_singleton] at hb
    subst hb; exact ha
  · rw [List.mem_map] at hb
    obtain ⟨idx, _, rfl⟩ := hb
    unfold mkCand
    split
    · exact ha
    · split
      · exact ha
      · exact head?_append_of_head? _ ha

theorem beamLoop_head_inv (exec : List ℕ → List ℚ)
    (allowed : Option (ℕ → Bool)) (eos B sos : ℕ) :
    ∀ (n : ℕ) (beams : List Beam),
      (∀ b ∈ beams, b.ids.head? = some sos) →
      ∀ b ∈ beamLoop exec allowed eos B n beams, b.ids.head? = some sos := by
  intro n
  induction n with
  | zero => intro beams h; exact h
  | succ n ih =>
    intro beams h
    have hstep : ∀ b ∈ beamStep exec allowed eos B beams,
        b.ids.head? = some sos := by
      intro b hb
      obtain ⟨a, ha, hba⟩ := List.mem_flatMap.mp (mem_of_mem_beamStep hb)
      exact expandBeam_head_inv (h a ha) hba
    intro b hb
    simp only [beamLoop] at hb
    split at hb
    · exact hstep b hb
    · exact ih _ hstep b hb

/-- C2: after every expansion round the candidate pool (open and
finished beams together) is ranked by the length-normalized score and
only the top `B` survive (every survivor outscores every discarded
candidate); on termination at most `B` candidates are returned, drawn
from finished beams whenever any survivor is finished, ranked best
first, each with its leading `sos` stripped. -/
theorem beamDecode_ranking (exec : List ℕ → List ℚ)
    (allowed : Option (ℕ → Bool)) (sos eos B maxSteps : ℕ) :
    (∀ beams : List Beam, ∃ rest : List Beam,
      (beams.flatMap (expandBeam exec allowed eos B)).Perm
        (beamStep exec allowed eos B beams ++ rest) ∧
      (beamStep exec allowed eos B beams).Pairwise beamGE ∧
      (beamStep exec allowed eos B beams).length =
        min B (beams.flatMap (expandBeam exec allowed eos B)).length ∧
      (∀ a ∈ beamStep exec allowed eos B beams, ∀ c ∈ rest,
        nscore c ≤ nscore a)) ∧
    (beamDecode exec allowed sos eos B maxSteps).length ≤ B ∧
    (∃ bs : List Beam,
      beamDecode exec allowed sos eos B maxSteps
        = bs.map (fun b => (b.ids.drop 1, b.logProb)) ∧
      bs.Pairwise beamGE ∧
      (∀ b ∈ bs, b.ids.head? = some sos) ∧
      ((∃ b ∈ beamLoop exec allowed eos B maxSteps
          [{ logProb := (0 : ℚ), ids := [sos], finished := false }],
          b.finished = true) →
        ∀ b ∈ bs, b.finished = true)) := by
  refine ⟨?_, ?_, ?_⟩
  · intro beams
    set pool := beams.flatMap (expandBeam exec allowed eos B) with hpool
    set s := sortBeams pool with hs
    have hbs : beamStep exec allowed eos B beams = s.take B := rfl
    refine ⟨s.drop B, ?_, ?_, ?_, ?_⟩
    · rw [hbs, List.take_append_drop]
      exact (List.perm_insertionSort beamGE pool).symm
    · rw [hbs]
      exact (List.sorted_insertionSort beamGE pool).sublist
        (List.take_sublist _ _)
    · rw [hbs, List.length_take, hs]
      unfold sortBeams
      rw [List.length_insertionSort]
    · rw [hbs]
      intro a ha c hc
      have hsorted : s.Pairwise beamGE := List.sorted_insertionSort beamGE pool
      rw [← List.take_append_drop B s] at hsorted
      exact (List.pairwise_append.mp hsorted).2.2 a ha c hc
  · rw [show beamDecode exec allowed sos eos B maxSteps
        = ((sortBeams (
            let beams := beamLoop exec allowed eos B maxSteps
              [{ logProb := (0 : ℚ), ids := [sos], finished := false }]
            let completed := beams.filter (·.finished)
            if 0 < completed.length then completed else beams)).take B).map
          (fun b => (b.ids.drop 1, b.logProb)) from rfl]
    rw [List.length_map, List.length_take]
    exact min_le_left _ _
  · set final := beamLoop exec allowed eos B maxSteps
      [{ logProb := (0 : ℚ), ids := [sos], finished := false }] with hfinal
    set completed := final.filter (·.finished) with hcompleted
    set pool := if 0 < completed.length then completed else final with hpoolf
    refine ⟨(sortBeams pool).take B, rfl, ?_, ?_, ?_⟩
    · exact (List.sorted_insertionSort beamGE pool).sublist
        (List.take_sublist _ _)
    · intro b hb
      have hbpool : b ∈ pool :=
        (List.perm_insertionSort beamGE pool).mem_iff.mp
          ((List.take_sublist _ _).mem hb)
      have hbfinal : b ∈ final := by
        rw [hpoolf] at hbpool
        split at hbpool
        · exact List.mem_of_mem_filter hbpool
        · exact hbpool
      exact beamLoop_head_inv exec allowed eos B sos maxSteps _
        (by intro b hb; rw [List.mem_singleton] at hb; subst hb; rfl)
        b hbfinal
    · rintro ⟨bf, hbf, hbffin⟩ b hb
      have hne : 0 < completed.length := by
        rw [hcompleted]
        have : bf ∈ final.filter (·.finished) :=
          List.mem_filter.mpr ⟨hbf, by simp [hbffin]⟩
        exact List.length_pos.mpr (List.ne_nil_of_mem this)
      have hbpool : b ∈ pool :=
        (List.perm_insertionSort beamGE pool).mem_iff.mp
          ((List.take_sublist _ _).mem hb)
      rw [hpoolf, if_pos hne] at hbpool
      have := (List.mem_filter.mp hbpool).2
      simpa using this

/-! ### Beam width 1 versus greedy (C7) -/

/-- A concrete executor refuting the unconditional equivalence: from
`[sos] = [2]` the argmax is `eos = 0` (log-prob −7/10, close to the
log-softmax of probabilities (0.5, 0.45, 0.02)) with runner-up −4/5;
greedy stops immediately, but the length-normalized score of the open
runner-up (−4/5 ÷ 2 = −2/5) beats the finished beam (−7/10 ÷ 1), so
beam width 1 keeps decoding and returns a non-empty sequence. -/
def execC7 : List ℕ → List ℚ :=
  fun ids => if ids = [2] then [-7/10, -4/5, -4] else [-1/10, -3, -4]

/-- C7 counterexample: with `sos = 2`, `eos = 0`, `maxSteps = 5`, beam
decode with width 1 selects `[1]` while greedy decode selects `[]`. -/
theorem beam1_ne_greedy :
    (beamDecode execC7 none 2 0 1 5).map Prod.fst
      ≠ [(greedyDecode execC7 none 2 0 5).1] := by
  have hb : (beamDecode execC7 none 2 0 1 5).map Prod.fst = [[1]] := by
    norm_num [beamDecode, beamLoop, beamStep, sortBeams, expandBeam, topK,
      mkCand, nscore, beamGE, scoreGE, applyModeMask, maskedArgmax, argmaxGo,
      execC7, trailingRun, REPEAT_LIMIT, List.range_succ, List.insertionSort,
      List.orderedInsert, ← WithBot.coe_add, WithBot.map_coe, WithBot.map_bot,
      WithBot.coe_le_coe, WithBot.bot_lt_coe, WithBot.coe_lt_coe]
  have hg : (greedyDecode execC7 none 2 0 5).1 = [] := by
    norm_num [greedyDecode, greedyGo, applyModeMask, maskedArgmax, argmaxGo,
      execC7, WithBot.bot_lt_coe, WithBot.coe_lt_coe]
  rw [hb, hg]
  simp

/-- `j` is the earliest index of `arr` attaining the maximal score. -/
def firstMaxSpec (arr : List Score) (j : ℕ) : Prop :=
  j < arr.length ∧ (∀ i, i < arr.length → arr.getD i ⊥ ≤ arr.getD j ⊥) ∧
  ∀ i, i < j → arr.getD i ⊥ < arr.getD j ⊥

theorem firstMaxSpec_unique {arr : List Score} {j j' : ℕ}
    (h : firstMaxSpec arr j) (h' : firstMaxSpec arr j') : j = j' := by
  rcases lt_trichotomy j j' with hlt | he | hgt
  · exact absurd (lt_of_lt_of_le (h'.2.2 j hlt) (h.2.1 j' h'.1)) (lt_irrefl _)
  · exact he
  · exact absurd (lt_of_lt_of_le (h.2.2 j' hgt) (h'.2.1 j h.1)) (lt_irrefl _)

/-- The decode loops' argmax (strict `>` update) picks the earliest
maximal index. -/
theorem maskedArgmax_firstMax (arr : List Score) (hne : arr ≠ []) :
    firstMaxSpec arr (maskedArgmax arr) := by
  by_cases hall : ∀ j, j < arr.length → arr.getD j ⊥ ≤ (⊥ : Score)
  · have h0 : argmaxGo arr 0 (0, ⊥) = (0, ⊥) :=
      argmaxGo_of_all_le arr 0 (0, ⊥) hall
    unfold maskedArgmax
    rw [h0]
    refine ⟨List.length_pos.mpr hne, ?_, fun i hi => absurd hi (Nat.not_lt_zero i)⟩
    intro i hi
    rw [le_bot_iff.mp (hall i hi),
      le_bot_iff.mp (hall 0 (List.length_pos.mpr hne))]
  · push_neg at hall
    obtain ⟨j, hj, hgt⟩ := hall
    obtain ⟨j', hj', hrec, hmax, hfirst, _⟩ :=
      argmaxGo_first_max arr 0 (0, ⊥) ⟨j, hj, hgt⟩
    have : maskedArgmax arr = j' := by
      unfold maskedArgmax
      rw [hrec]
      simp
    rw [this]
    exact ⟨hj', hmax, hfirst⟩

/-- Head of the stable descending index sort: some maximal index with all
earlier list entries strictly smaller. -/
theorem insertionSort_head_firstMax (arr : List Score) :
    ∀ l : List ℕ, l ≠ [] →
      ∃ (j : ℕ) (l₁ l₂ : List ℕ),
        (List.insertionSort (scoreGE arr) l).head? = some j ∧
        l = l₁ ++ j :: l₂ ∧
        (∀ i ∈ l, arr.getD i ⊥ ≤ arr.getD j ⊥) ∧
        (∀ i ∈ l₁, arr.getD i ⊥ < arr.getD j ⊥) := by
  intro l
  induction l with
  | nil => intro h; exact absurd rfl h
  | cons a t ih =>
    intro _
    rcases t.eq_nil_or_concat with rfl | ⟨t', y, hty⟩
    · exact ⟨a, [], [], by simp [List.insertionSort, List.orderedInsert],
        rfl, by simp, by simp⟩
    · have htne : t ≠ [] := by rw [hty]; simp
      obtain ⟨j, l₁, l₂, hh, hsplit, hmax, hstrict⟩ := ih htne
      cases hsort : List.insertionSort (scoreGE arr) t with
      | nil =>
        rw [hsort] at hh
        simp at hh
      | cons j0 s' =>
        rw [hsort] at hh
        have hj0 : j0 = j := by simpa using hh
        subst hj0
        by_cases hge : scoreGE arr a j0
        · refine ⟨a, [], t, ?_, rfl, ?_, by simp⟩
          · show (List.orderedInsert (scoreGE arr) a
              (List.insertionSort (scoreGE arr) t)).head? = some a
            rw [hsort]
            simp [List.orderedInsert, hge]
          · intro k hk
            rcases List.mem_cons.mp hk with rfl | hk
            · exact le_refl _
            · exact le_trans (hmax k hk) hge
        · have hlt : arr.getD a ⊥ < arr.getD j0 ⊥ :=
            not_le.mp (by simpa [scoreGE] using hge)
          refine ⟨j0, a :: l₁, l₂, ?_, by rw [hsplit]; rfl, ?_, ?_⟩
          · show (List.orderedInsert (scoreGE arr) a
              (List.insertionSort (scoreGE arr) t)).head? = some j0
            rw [hsort]
            simp [List.orderedInsert, hge]
          · intro k hk
            rcases List.mem_cons.mp hk with rfl | hk
            · exact hlt.le
            · exact hmax k hk
          · intro k hk
            rcases List.mem_cons.mp hk with rfl | hk
            · exact hlt
            · exact hstrict k hk

theorem head?_take {α : Type} (l : List α) {k : ℕ} (hk : 1 ≤ k) :
    (l.take k).head? = l.head? := by
  cases l with
  | nil => simp
  | cons a t =>
    cases k with
    | zero => omega
    | succ k => simp

/-- The head of `topK` is exactly the greedy argmax (stability of the JS
sort makes the earliest maximal index come first). -/
theorem topK_head_eq_maskedArgmax (arr : List Score) (hne : arr ≠ [])
    {k : ℕ} (hk : 1 ≤ k) :
    (topK arr k).head? = some (maskedArgmax arr) := by
  have hlen : 0 < arr.length := List.length_pos.mpr hne
  have hrange : List.range arr.length ≠ [] := by
    simp only [ne_eq, List.range_eq_nil]
    omega
  obtain ⟨j, l₁, l₂, hh, hsplit, _, hstrict⟩ :=
    insertionSort_head_firstMax arr (List.range arr.length) hrange
  have hl₁len : l₁.length < arr.length := by
    have hlen2 := congrArg List.length hsplit
    rw [List.length_range, List.length_append, List.length_cons] at hlen2
    omega
  have htake : (l₁ ++ j :: l₂).take (l₁.length + 1) = l₁ ++ [j] := by
    rw [List.take_append]
    simp
  have hpre : l₁ ++ [j] = List.range l₁.length ++ [l₁.length] := by
    rw [← htake, ← hsplit, List.take_range,
      show min (l₁.length + 1) arr.length = l₁.length + 1 from by omega,
      List.range_succ]
  have hinj := List.append_inj hpre (by simp)
  have hjval : j = l₁.length := by
    have := hinj.2
    simpa using this
  have hl₁ : l₁ = List.range j := by
    rw [hjval]
    exact hinj.1
  have hjspec : firstMaxSpec arr j := by
    refine ⟨?_, ?_, ?_⟩
    · omega
    · intro i hi
      exact ‹∀ i ∈ List.range arr.length, arr.getD i ⊥ ≤ arr.getD j ⊥› i
        (List.mem_range.mpr hi)
    · intro i hi
      exact hstrict i (by rw [hl₁]; exact List.mem_range.mpr hi)
  have heq : j = maskedArgmax arr :=
    firstMaxSpec_unique hjspec (maskedArgmax_firstMax arr hne)
  unfold topK
  rw [head?_take _ hk, hh, heq]

/-- Every member of `topK` is an in-range index. -/
theorem mem_topK_lt {arr : List Score} {k i : ℕ} (h : i ∈ topK arr k) :
    i < arr.length := by
  have h1 : i ∈ List.insertionSort (scoreGE arr) (List.range arr.length) :=
    (List.take_sublist _ _).mem h
  have h2 : i ∈ List.range arr.length :=
    (List.mem_insertionSort (scoreGE arr)).mp h1
  exact List.mem_range.mp h2

theorem score_add_nonpos {a b : Score} (ha : a ≤ 0) (hb : b ≤ 0) :
    a + b ≤ 0 := by
  induction a using WithBot.recBotCoe with
  | bot => rw [WithBot.bot_add]; exact bot_le
  | coe qa =>
    induction b using WithBot.recBotCoe with
    | bot => rw [WithBot.add_bot]; exact bot_le
    | coe qb =>
      rw [← WithBot.coe_add, ← WithBot.coe_zero, WithBot.coe_le_coe]
      rw [← WithBot.coe_zero, WithBot.coe_le_coe] at ha hb
      exact add_nonpos ha hb

theorem score_div_le {a b : Score} (hab : a ≤ b) {n : ℕ} (hn : 0 < n) :
    a.map (fun p => p / (n : ℚ)) ≤ b.map (fun p => p / (n : ℚ)) := by
  induction a using WithBot.recBotCoe with
  | bot => rw [WithBot.map_bot]; exact bot_le
  | coe qa =>
    induction b using WithBot.recBotCoe with
    | bot => exact absurd hab (by simp)
    | coe qb =>
      rw [WithBot.coe_le_coe] at hab
      rw [WithBot.map_coe, WithBot.map_coe, WithBot.coe_le_coe]
      exact (div_le_div_right (by exact_mod_cast hn)).mpr hab

theorem score_nonpos_div_succ {a : Score} (ha : a ≤ 0) {n : ℕ} (hn : 0 < n) :
    a.map (fun p => p / (n : ℚ)) ≤ a.map (fun p => p / ((n + 1 : ℕ) : ℚ)) := by
  induction a using WithBot.recBotCoe with
  | bot => rw [WithBot.map_bot]; exact bot_le
  | coe q =>
    rw [← WithBot.coe_zero, WithBot.coe_le_coe] at ha
    rw [WithBot.map_coe, WithBot.map_coe, WithBot.coe_le_coe]
    have hn1 : (0 : ℚ) < n := by exact_mod_cast hn
    have hn2 : (0 : ℚ) < ((n + 1 : ℕ) : ℚ) := by positivity
    rw [div_le_div_iff hn1 hn2]
    have := mul_le_mul_of_nonpos_left
      (show (n : ℚ) ≤ ((n + 1 : ℕ) : ℚ) by exact_mod_cast Nat.le_succ n) ha
    linarith

theorem applyModeMask_length (lp : List ℚ) (allowed : Option (ℕ → Bool)) :
    (applyModeMask lp allowed).length = lp.length := by
  cases allowed with
  | none => simp [applyModeMask]
  | some f => exact maskGo_length f lp 0

/-- Every masked score is nonpositive when every raw log-probability is
(a log-softmax output always is). -/
theorem applyModeMask_getD_nonpos {lp : List ℚ}
    (h1 : ∀ v ∈ lp, v ≤ 0) (allowed : Option (ℕ → Bool)) (i : ℕ) :
    (applyModeMask lp allowed).getD i ⊥ ≤ 0 := by
  by_cases hi : i < lp.length
  · cases allowed with
    | none =>
      have hlen : i < (lp.map (fun v : ℚ => (v : Score))).length := by
        simpa using hi
      show (lp.map (fun v : ℚ => (v : Score))).getD i ⊥ ≤ 0
      rw [List.getD_eq_getElem _ _ hlen, List.getElem_map]
      rw [← WithBot.coe_zero, WithBot.coe_le_coe]
      exact h1 _ (List.getElem_mem _)
    | some f =>
      show (maskGo f 0 lp).getD i ⊥ ≤ 0
      rw [maskGo_getD f lp 0 i hi]
      split
      · rw [← WithBot.coe_zero, WithBot.coe_le_coe,
          List.getD_eq_getElem _ _ hi]
        exact h1 _ (List.getElem_mem _)
      · exact bot_le
  · rw [List.getD_eq_default]
    · exact bot_le
    · rw [applyModeMask_length]
      exact Nat.le_of_not_lt hi

/-- The pure argmax trajectory: what greedy generates when no stop
condition fires. -/
def trajStep (exec : List ℕ → List ℚ) (allowed : Option (ℕ → Bool))
    (ids : List ℕ) : List ℕ :=
  ids ++ [maskedArgmax (applyModeMask (exec ids) allowed)]

def traj (exec : List ℕ → List ℚ) (allowed : Option (ℕ → Bool)) :
    ℕ → List ℕ → List ℕ
  | 0, ids => ids
  | n + 1, ids => traj exec allowed n (trajStep exec allowed ids)

/-- When the argmax is never `eos` and never continues a saturated
trailing run, greedy follows the pure argmax trajectory for the whole
step budget. -/
theorem greedyGo_traj (exec : List ℕ → List ℚ)
    (allowed : Option (ℕ → Bool)) (eos : ℕ)
    (h2 : ∀ ids, maskedArgmax (applyModeMask (exec ids) allowed) ≠ eos)
    (h3 : ∀ ids, trailingRun (ids.drop 1)
        (maskedArgmax (applyModeMask (exec ids) allowed)) < REPEAT_LIMIT) :
    ∀ (n : ℕ) (ids : List ℕ) (rc : ℕ) (lt : ℤ), ids ≠ [] →
      gInv ids rc lt →
      (greedyGo exec allowed eos n ids rc lt).1 = traj exec allowed n ids := by
  intro n
  induction n with
  | zero => intro ids rc lt _ _; rfl
  | succ n ih =>
    intro ids rc lt hne hinv
    set m := maskedArgmax (applyModeMask (exec ids) allowed) with hm
    obtain ⟨i₀, ids', rfl⟩ : ∃ a t, ids = a :: t := by
      rcases ids with _ | ⟨a, t⟩
      · exact absurd rfl hne
      · exact ⟨a, t, rfl⟩
    have hdrop : (i₀ :: ids').drop 1 = ids' := rfl
    have h1 : ¬ m = eos := h2 _
    have htraj : traj exec allowed (n + 1) (i₀ :: ids')
        = traj exec allowed n ((i₀ :: ids') ++ [m]) := rfl
    by_cases hcase : (m : ℤ) = lt
    · subst hcase
      have hrc : trailingRun ids' m = rc + 1 := by
        rcases hinv with ⟨hlt, _⟩ | ⟨_, _, htr⟩
        · exact absurd hlt (by omega)
        · simpa [hdrop] using htr
      have h3' : ¬ REPEAT_LIMIT ≤ rc + 1 := by
        have := h3 (i₀ :: ids')
        rw [hdrop, ← hm, hrc] at this
        omega
      have hinv' : gInv ((i₀ :: ids') ++ [m]) (rc + 1) (m : ℤ) := by
        right
        refine ⟨Int.natCast_nonneg m, ?_, ?_⟩
        · simp [List.getLast?_concat]
        · simp only [List.cons_append, List.drop_succ_cons, List.drop_zero,
            Int.toNat_natCast]
          rw [trailingRun_concat_self, hrc]
      have := ih ((i₀ :: ids') ++ [m]) (rc + 1) (m : ℤ) (by simp) hinv'
      rw [htraj, ← this]
      simp [greedyGo, ← hm, h1, h3']
    · have hzero : trailingRun ids' m = 0 := by
        rcases hinv with ⟨_, hgen⟩ | ⟨hlt, hlast, _⟩
        · rw [hdrop] at hgen; rw [hgen]; rfl
        · apply trailingRun_eq_zero_of_getLast?
          rw [hdrop] at hlast
          rw [hlast]
          intro hc
          apply hcase
          have hm' : lt.toNat = m := by injection hc
          rw [← hm', Int.toNat_of_nonneg hlt]
      have hinv' : gInv ((i₀ :: ids') ++ [m]) 0 (m : ℤ) := by
        right
        refine ⟨Int.natCast_nonneg m, ?_, ?_⟩
        · simp [List.getLast?_concat]
        · simp only [List.cons_append, List.drop_succ_cons, List.drop_zero,
            Int.toNat_natCast]
          rw [trailingRun_concat_self, hzero]
      have := ih ((i₀ :: ids') ++ [m]) 0 (m : ℤ) (by simp) hinv'
      rw [htraj, ← this]
      simp [greedyGo, ← hm, h1, hcase]

/-- With width 1 and no stop condition ever firing, the beam loop keeps
exactly the greedy argmax continuation at every round: the argmax
candidate is open, shares the denominator `n+1` with every other open
candidate but has the largest numerator, and dominates every finished
candidate because a nonpositive total divided by the shorter length `n`
is smaller still; stability of the sort breaks ties in its favour. -/
theorem beamLoop_width1 (exec : List ℕ → List ℚ)
    (allowed : Option (ℕ → Bool)) (eos : ℕ)
    (h1 : ∀ ids, ∀ v ∈ exec ids, v ≤ 0)
    (h4 : ∀ ids, exec ids ≠ [])
    (h2 : ∀ ids, maskedArgmax (applyModeMask (exec ids) allowed) ≠ eos)
    (h3 : ∀ ids, trailingRun (ids.drop 1)
        (maskedArgmax (applyModeMask (exec ids) allowed)) < REPEAT_LIMIT) :
    ∀ (n : ℕ) (ids : List ℕ) (L : Score), ids ≠ [] → L ≤ 0 →
      ∃ L' : Score, L' ≤ 0 ∧
        beamLoop exec allowed eos 1 n [⟨L, ids, false⟩]
          = [⟨L', traj exec allowed n ids, false⟩] := by
  intro n
  induction n with
  | zero => intro ids L _ hL; exact ⟨L, hL, rfl⟩
  | succ n ih =>
    intro ids L hne hL
    set lp := applyModeMask (exec ids) allowed with hlp
    set m := maskedArgmax lp with hm
    have hlplen : lp.length = (exec ids).length := applyModeMask_length _ _
    have hlpne : lp ≠ [] := by
      have := h4 ids
      intro hc
      rw [hc] at hlplen
      exact this (List.eq_nil_of_length_eq_zero hlplen.symm)
    have spec := maskedArgmax_firstMax lp hlpne
    have hmlt : m < lp.length := spec.1
    have hn₀ : 0 < ids.length := List.length_pos.mpr hne
    have hhead := topK_head_eq_maskedArgmax lp hlpne (k := 1 * 2) (by norm_num)
    obtain ⟨restIdx, htk⟩ : ∃ r, topK lp (1 * 2) = m :: r := by
      cases htk : topK lp (1 * 2) with
      | nil => rw [htk] at hhead; simp at hhead
      | cons a r =>
        rw [htk] at hhead
        simp only [List.head?_cons, Option.some.injEq] at hhead
        exact ⟨r, by rw [hhead]⟩
    have hbeam : (⟨L, ids, false⟩ : Beam).finished = false := rfl
    have hrun : ¬ REPEAT_LIMIT ≤ trailingRun (ids.drop 1) m :=
      not_le.mpr (h3 ids)
    have hc0 : mkCand ⟨L, ids, false⟩ lp eos m
        = ⟨L + lp.getD m 0, ids ++ [m], false⟩ := by
      unfold mkCand
      rw [if_neg (h2 ids), if_neg hrun]
    have hval0 : ∀ i, i < lp.length → lp.getD i (0 : Score) = lp.getD i ⊥ := by
      intro i hi
      rw [List.getD_eq_getElem _ _ hi, List.getD_eq_getElem _ _ hi]
    have hnonpos : ∀ i, lp.getD i (⊥ : Score) ≤ 0 := fun i =>
      applyModeMask_getD_nonpos (h1 ids) allowed i
    have hGE : ∀ c ∈ restIdx.map (mkCand ⟨L, ids, false⟩ lp eos),
        beamGE (mkCand ⟨L, ids, false⟩ lp eos m) c := by
      intro c hc
      obtain ⟨idx, hidx, rfl⟩ := List.mem_map.mp hc
      have hidxtk : idx ∈ topK lp (1 * 2) := by
        rw [htk]
        exact List.mem_cons_of_mem _ hidx
      have hilt : idx < lp.length := mem_topK_lt hidxtk
      have hvile : lp.getD idx ⊥ ≤ lp.getD m ⊥ := spec.2.1 idx hilt
      have hvi0 : lp.getD idx (⊥ : Score) ≤ 0 := hnonpos idx
      have hsum0 : L + lp.getD idx ⊥ ≤ 0 := score_add_nonpos hL hvi0
      have hsumle : L + lp.getD idx ⊥ ≤ L + lp.getD m ⊥ :=
        add_le_add_left hvile L
      show nscore _ ≤ nscore _
      rw [hc0]
      have hns0 : nscore ⟨L + lp.getD m 0, ids ++ [m], false⟩
          = (L + lp.getD m ⊥).map
              (fun p => p / ((ids.length + 1 : ℕ) : ℚ)) := by
        unfold nscore
        rw [hval0 m hmlt]
        simp only [List.length_append, List.length_singleton]
        rw [Nat.max_eq_left (by omega)]
      rw [hns0]
      unfold mkCand
      split
      · -- eos candidate: finished, frozen ids of length ids.length
        refine le_trans ?_ (score_div_le hsumle (by omega))
        unfold nscore
        simp only
        rw [hval0 idx hilt, Nat.max_eq_left (by omega)]
        exact score_nonpos_div_succ hsum0 hn₀
      · split
        · -- saturated-run candidate: finished, frozen ids
          refine le_trans ?_ (score_div_le hsumle (by omega))
          unfold nscore
          simp only
          rw [hval0 idx hilt, Nat.max_eq_left (by omega)]
          exact score_nonpos_div_succ hsum0 hn₀
        · -- open candidate: same length ids.length + 1
          unfold nscore
          simp only [List.length_append, List.length_singleton]
          rw [hval0 idx hilt, Nat.max_eq_left (by omega)]
          exact score_div_le hsumle (by omega)
    have hexpand : expandBeam exec allowed eos 1 ⟨L, ids, false⟩
        = mkCand ⟨L, ids, false⟩ lp eos m
          :: restIdx.map (mkCand ⟨L, ids, false⟩ lp eos) := by
      unfold expandBeam
      rw [if_neg (by rw [hbeam]; exact Bool.false_ne_true)]
      show (topK lp (1 * 2)).map (mkCand ⟨L, ids, false⟩ lp eos) = _
      rw [htk, List.map_cons]
    have hstep : beamStep exec allowed eos 1 [⟨L, ids, false⟩]
        = [mkCand ⟨L, ids, false⟩ lp eos m] := by
      unfold beamStep sortBeams
      rw [show ([⟨L, ids, false⟩] : List Beam).flatMap
            (expandBeam exec allowed eos 1)
          = expandBeam exec allowed eos 1 ⟨L, ids, false⟩ from by simp]
      rw [hexpand]
      rw [List.insertionSort_cons (r := beamGE) hGE]
      rfl
    have hfin : (mkCand ⟨L, ids, false⟩ lp eos m).finished = false := by
      rw [hc0]
    obtain ⟨L', hL', hrec⟩ := ih (ids ++ [m]) (L + lp.getD m 0) (by simp)
      (by rw [hval0 m hmlt]; exact score_add_nonpos hL (hnonpos m))
    refine ⟨L', hL', ?_⟩
    have htraj : traj exec allowed (n + 1) ids
        = traj exec allowed n (ids ++ [m]) := rfl
    rw [htraj, ← hrec]
    show (let b' := beamStep exec allowed eos 1 [⟨L, ids, false⟩]
      if b'.all (·.finished) then b'
      else beamLoop exec allowed eos 1 n b') = _
    rw [hstep]
    simp only [List.all_cons, List.all_nil, hfin, Bool.and_true,
      if_false]
    rw [hc0]
    simp

/-- C7 (amended): beam decode with width 1 selects the same final token
sequence as greedy decode provided no stop condition fires within the
step budget — the executor always returns a nonempty nonpositive
log-probability vector (log-softmax outputs are), and the masked argmax
is never `eos` and never continues a trailing run already at
`REPEAT_LIMIT`.  (Unconditionally the two differ: see the
counterexample, where length normalization prefers the open runner-up
over the finished argmax beam.) -/
theorem beamDecode_width1_eq_greedy (exec : List ℕ → List ℚ)
    (allowed : Option (ℕ → Bool)) (sos eos maxSteps : ℕ)
    (h1 : ∀ ids, ∀ v ∈ exec ids, v ≤ 0)
    (h4 : ∀ ids, exec ids ≠ [])
    (h2 : ∀ ids, maskedArgmax (applyModeMask (exec ids) allowed) ≠ eos)
    (h3 : ∀ ids, trailingRun (ids.drop 1)
        (maskedArgmax (applyModeMask (exec ids) allowed)) < REPEAT_LIMIT) :
    (beamDecode exec allowed sos eos 1 maxSteps).map Prod.fst
      = [(greedyDecode exec allowed sos eos maxSteps).1] := by
  obtain ⟨L', hL', hloop⟩ := beamLoop_width1 exec allowed eos h1 h4 h2 h3
    maxSteps [sos] (((0 : ℚ) : Score)) (by simp)
    (by rw [WithBot.coe_zero])
  have hg : (greedyDecode exec allowed sos eos maxSteps).1
      = (traj exec allowed maxSteps [sos]).drop 1 := by
    show (greedyGo exec allowed eos maxSteps [sos] 0 (-1)).1.drop 1
      = (traj exec allowed maxSteps [sos]).drop 1
    rw [greedyGo_traj exec allowed eos h2 h3 maxSteps [sos] 0 (-1)
      (by simp) (Or.inl ⟨rfl, rfl⟩)]
  rw [hg]
  unfold beamDecode
  rw [hloop]
  simp [sortBeams, List.insertionSort, List.orderedInsert]

theorem getLast?_drop_one_cases (l : List ℕ) :
    l.drop 1 = [] ∨ (l.drop 1).getLast? = l.getLast? := by
  match l with
  | [] => exact Or.inl rfl
  | [a] => exact Or.inl rfl
  | a :: b :: t =>
    right
    simp [List.getLast?_cons_cons]

/-- An executor satisfying the amended C7's hypotheses: from a sequence
ending in token 1 the argmax is token 2 and vice versa, so the argmax is
never `eos = 0` and never repeats. -/
def execW : List ℕ → List ℚ :=
  fun ids => if ids.getLast? = some 1 then [-5, -2, -1] else [-5, -1, -2]

/-- Witness for the amended C7: all four hypotheses hold for `execW`,
and beam width 1 equals greedy on it. -/
theorem beamDecode_width1_eq_greedy_witness :
    (∀ ids, ∀ v ∈ execW ids, v ≤ 0) ∧
    (∀ ids, execW ids ≠ []) ∧
    (∀ ids, maskedArgmax (applyModeMask (execW ids) none) ≠ 0) ∧
    (∀ ids, trailingRun (ids.drop 1)
        (maskedArgmax (applyModeMask (execW ids) none)) < REPEAT_LIMIT) ∧
    (beamDecode execW none 2 0 1 3).map Prod.fst
      = [(greedyDecode execW none 2 0 3).1] := by
  have ha1 : maskedArgmax (applyModeMask [(-5 : ℚ), -2, -1] none) = 2 := by
    norm_num [applyModeMask, maskedArgmax, argmaxGo]
  have ha2 : maskedArgmax (applyModeMask [(-5 : ℚ), -1, -2] none) = 1 := by
    norm_num [applyModeMask, maskedArgmax, argmaxGo]
  have hw1 : ∀ ids, ∀ v ∈ execW ids, v ≤ 0 := by
    intro ids v hv
    unfold execW at hv
    split at hv <;> simp at hv <;> rcases hv with rfl | rfl | rfl <;> norm_num
  have hw4 : ∀ ids, execW ids ≠ [] := by
    intro ids
    unfold execW
    split <;> simp
  have hw2 : ∀ ids, maskedArgmax (applyModeMask (execW ids) none) ≠ 0 := by
    intro ids
    unfold execW
    split
    · rw [ha1]; norm_num
    · rw [ha2]; norm_num
  have hw3 : ∀ ids, trailingRun (ids.drop 1)
      (maskedArgmax (applyModeMask (execW ids) none)) < REPEAT_LIMIT := by
    intro ids
    unfold execW
    split
    · rename_i h
      rw [ha1]
      rcases getLast?_drop_one_cases ids with hnil | hlast
      · rw [hnil]
        simp [trailingRun, REPEAT_LIMIT]
      · rw [trailingRun_eq_zero_of_getLast? _ _ (by rw [hlast, h]; simp)]
        norm_num [REPEAT_LIMIT]
    · rename_i h
      rw [ha2]
      rcases getLast?_drop_one_cases ids with hnil | hlast
      · rw [hnil]
        simp [trailingRun, REPEAT_LIMIT]
      · rw [trailingRun_eq_zero_of_getLast? _ _ (by rw [hlast]; exact h)]
        norm_num [REPEAT_LIMIT]
  exact ⟨hw1, hw4, hw2, hw3,
    beamDecode_width1_eq_greedy execW none 2 0 3 hw1 hw4 hw2 hw3⟩

end InkOn
